import Mathlib

/-!
# spyglass: the concurrent fetch / scan / collect pipeline of `main.go`

A shallow embedding of `src/spyglass/main.go`.

* Go `string` and `[]byte` are both modelled by `String`; the conversion
  `[]byte(s)` is the identity.
* The outside world (the network, the YARA engine, the file system) is a
  record of functions: what `http.Get` returns for an URL, what the YARA
  callback collects for a buffer, what `os.Open` and `ioutil.ReadDir` return.
* The goroutines (feeder, workers, closer, collector) are a transition system
  on an explicit state; an interleaving is a list of actions.
-/

namespace Spyglass

/-! ## Data model -/

/-- One rule match of the YARA engine (`yara.MatchRule`), reduced to the
identity of the rule that fired. -/
structure MatchRule where
  Rule : String
  Namespace : String
  deriving DecidableEq, Repr

/-- The type `yara.MatchRules`: the matches one callback value has collected. -/
abbrev MatchRules := List MatchRule

/-- The struct `ScanResult` of `main.go` (lines 19-23): three fields, none of
which holds an error. -/
structure ScanResult where
  URL : String
  CPESlice : List String
  Matches : List MatchRules
  deriving DecidableEq, Repr

/-- The type `http.Header` (`map[string][]string`), given as the list of its
entries in the order in which one `range` over the map visits them. Go leaves
that order unspecified, so every order of the entries is a possible value. -/
abbrev Header := List (String × List String)

/-- What a successful `http.Get` hands to the worker: the header map, the bytes
`ioutil.ReadAll(resp.Body)` returns, and whether `ReadAll` also returned an
error. -/
structure Response where
  Header : Header
  body : String
  readErr : Bool
  deriving DecidableEq, Repr

/-- The network and the compiled ruleset, fixed per target and per buffer.
`httpGet url` is `none` when `http.Get(url)` returns an error. `scanMem buf` is
the list of matches that one call `rules.ScanMem(buf, 0, 120, &matches)`
reports to its callback, in order. -/
structure World where
  httpGet : String → Option Response
  scanMem : String → MatchRules

/-! ## `headersToBytes` (lines 175-182) -/

/-- The loop body `headers = fmt.Sprintf("%s:%s\n%s", k, v[0], headers)`;
`none` is the run-time panic of `v[0]` on an empty slice. -/
def headerLine (headers : String) (kv : String × List String) : Option String :=
  match kv.2 with
  | [] => none
  | v0 :: _ => some (kv.1 ++ ":" ++ v0 ++ "\n" ++ headers)

/-- The `for k, v := range h` loop of `headersToBytes`, from the accumulator
`headers`, over the entries in iteration order. -/
def headersLoop : Header → String → Option String
  | [], headers => some headers
  | kv :: rest, headers =>
    match headerLine headers kv with
    | none => none
    | some headers1 => headersLoop rest headers1

/-- The function `headersToBytes`: starts from `headers := ""`. -/
def headersToBytes (h : Header) : Option String :=
  headersLoop h ""

/-! ## One iteration of the worker loop (lines 108-143) -/

/-- How one iteration of `for j := range jobs` ends. -/
inductive Outcome
  /-- The `continue` of line 118: nothing is sent. -/
  | skipped
  /-- The send `results <- res` of line 141. -/
  | posted (res : ScanResult)
  /-- A run-time panic inside the iteration. -/
  | panicked
  deriving DecidableEq, Repr

/-- The result of one iteration together with the buffers on which
`rules.ScanMem` was invoked, in order. -/
structure Iteration where
  outcome : Outcome
  scans : List String
  deriving DecidableEq, Repr

/-- The body of the worker loop for the job `j`.

`matches` is one variable for both scans: `yara.MatchRules` is a callback
that appends every reported match to itself, so the second `ScanMem` extends
what the first one collected. The error of `ioutil.ReadAll` is assigned and
never read. -/
def workerIteration (w : World) (j : String) : Iteration :=
  let url := j
  let res : ScanResult := { URL := url, CPESlice := [], Matches := [] }
  match w.httpGet url with
  | none => { outcome := .skipped, scans := [] }
  | some resp =>
    let body := resp.body
    match headersToBytes resp.Header with
    | none => { outcome := .panicked, scans := [] }
    | some headerBytes =>
      let matches0 : MatchRules := []
      let matches1 := matches0 ++ w.scanMem body
      let res1 := { res with Matches := res.Matches ++ [matches1] }
      let matches2 := matches1 ++ w.scanMem headerBytes
      let res2 := { res1 with Matches := res1.Matches ++ [matches2] }
      { outcome := .posted res2, scans := [body, headerBytes] }

/-! ## The pipeline (lines 96-171)

Both channels are unbuffered, so a send and the matching receive are one joint
step of the two goroutines. -/

/-- Where one worker goroutine stands. -/
inductive WState
  /-- Blocked in `for j := range jobs`, waiting for a job or for the close. -/
  | idle
  /-- A job has been received; the loop body has not run yet. -/
  | busy (url : String)
  /-- Blocked in `results <- res`. -/
  | sending (res : ScanResult)
  /-- The loop is left and the deferred `wg.Done()` has run. -/
  | done
  deriving DecidableEq, Repr

/-- The state of a run once the goroutines exist. -/
structure State where
  /-- The lines the feeder has still to send on `jobs`. -/
  input : List String
  /-- Whether the feeder has executed `close(jobs)`. -/
  jobsClosed : Bool
  /-- The worker goroutines, in the order of their creation. -/
  workers : List WState
  /-- Whether the closer has executed `close(results)`. -/
  resultsClosed : Bool
  /-- The ScanResults the collector loop has printed, oldest first. -/
  out : List ScanResult
  /-- Whether `main` has returned. -/
  mainDone : Bool
  /-- Whether a goroutine has panicked, which ends the process. -/
  crashed : Bool
  deriving DecidableEq, Repr

/-- The loop `for w := 1; w <= *threads; w++` starts one worker per round:
`threads` workers, none when `threads < 1`. The counter `w` is taken not to
wrap, which holds for every `threads` below the largest `int`. -/
def startWorkers (threads : Int) : List WState :=
  List.replicate threads.toNat WState.idle

/-- The state after line 161: channels open, every worker waiting for a job,
the feeder in front of the first line. -/
def init (lines : List String) (threads : Int) : State :=
  { input := lines, jobsClosed := false, workers := startWorkers threads,
    resultsClosed := false, out := [], mainDone := false, crashed := false }

/-- The steps of the goroutines. -/
inductive Action
  /-- The feeder's `jobs <- line` meets the receive of worker `i`. -/
  | feed (i : Nat)
  /-- The feeder's `close(jobs)` after the last line. -/
  | closeJobs
  /-- Worker `i` runs the loop body up to the `continue` or up to the send. -/
  | work (i : Nat)
  /-- The send of worker `i` meets the receive of the collector loop, which
  prints the result. -/
  | collect (i : Nat)
  /-- Worker `i` finds `jobs` closed, leaves the loop and calls `wg.Done()`. -/
  | leave (i : Nat)
  /-- In the closer `wg.Wait()` returns and `close(results)` runs. -/
  | closeResults
  /-- The collector loop finds `results` closed and `main` returns. -/
  | mainReturn
  deriving DecidableEq, Repr

/-- One step of the run; `none` when the action is not enabled in `s`. Nothing
runs once `main` has returned or a goroutine has panicked. -/
def step (w : World) (s : State) (a : Action) : Option State :=
  if s.mainDone || s.crashed then none else
  match a with
  | .feed i =>
    match s.input, s.workers[i]? with
    | line :: rest, some .idle =>
      if s.jobsClosed then none
      else some { s with input := rest, workers := s.workers.set i (.busy line) }
    | _, _ => none
  | .closeJobs =>
    match s.input with
    | [] => if s.jobsClosed then none else some { s with jobsClosed := true }
    | _ :: _ => none
  | .work i =>
    match s.workers[i]? with
    | some (.busy url) =>
      match (workerIteration w url).outcome with
      | .skipped => some { s with workers := s.workers.set i .idle }
      | .posted res => some { s with workers := s.workers.set i (.sending res) }
      | .panicked => some { s with crashed := true }
    | _ => none
  | .collect i =>
    match s.workers[i]? with
    | some (.sending res) =>
      if s.resultsClosed then none
      else some { s with workers := s.workers.set i .idle, out := s.out ++ [res] }
    | _ => none
  | .leave i =>
    match s.workers[i]? with
    | some .idle =>
      if s.jobsClosed then some { s with workers := s.workers.set i .done } else none
    | _ => none
  | .closeResults =>
    if s.workers.all (fun x => decide (x = WState.done)) && !s.resultsClosed then
      some { s with resultsClosed := true }
    else none
  | .mainReturn =>
    if s.resultsClosed then some { s with mainDone := true } else none

/-- The run of a whole interleaving, given as the list of its steps; `none`
when some step of the list is not enabled. -/
def run (w : World) : State → List Action → Option State
  | s, [] => some s
  | s, a :: rest =>
    match step w s a with
    | none => none
    | some s1 => run w s1 rest

/-- What a scheduled target leads the worker to send: the posted ScanResult,
or nothing. -/
def expected (w : World) (url : String) : Option ScanResult :=
  match (workerIteration w url).outcome with
  | .posted res => some res
  | _ => none

/-- Whether `http.Get(url)` returns without error. -/
def getOk (w : World) (url : String) : Bool :=
  (w.httpGet url).isSome

/-- Every response the network delivers has at least one value under each
header key, as `net/http` builds them. -/
def WellFormed (w : World) : Prop :=
  ∀ url resp, w.httpGet url = some resp → ∀ kv ∈ resp.Header, kv.2 ≠ []

/-! ## Start-up of `main` (lines 25-93) -/

/-- The command-line flags. -/
structure Flags where
  inputFileName : String
  targetURL : String
  rulesDir : String
  threads : Int
  debug : Bool
  deriving DecidableEq, Repr

/-- The file system and the YARA compiler as `main` sees them. -/
structure Env where
  /-- Whether `yara.NewCompiler()` returns without error. -/
  newCompiler : Bool
  /-- The names `ioutil.ReadDir` lists, `none` on error. -/
  ioutilReadDir : String → Option (List String)
  /-- The function `path.Join`. -/
  pathJoin : String → String → String
  /-- Whether `os.Open` of the path returns without error. -/
  openOk : String → Bool
  /-- Whether `compiler.AddFile` accepts the rule file at the path. -/
  addFileOk : String → Bool
  /-- The lines `bufio.Scanner` yields from the opened file at the path. -/
  scanLines : String → List String

/-- The function `ReadDir` (lines 185-195). -/
def ReadDir (env : Env) (root : String) : Option (List String) :=
  match env.ioutilReadDir root with
  | none => none
  | some fileInfo => some (fileInfo.foldl (fun files file => files ++ [file]) [])

/-- The loop over `ruleFileList` (lines 57-71); `false` is a panic. -/
def addRuleFiles (env : Env) (rulesDir : String) : List String → Bool
  | [] => true
  | r :: rest =>
    let filePath := env.pathJoin rulesDir r
    if !env.openOk filePath then false
    else if !env.addFileOk filePath then false
    else addRuleFiles env rulesDir rest

/-- How the part of `main` before the worker pool ends. -/
inductive Startup
  /-- The call `os.Exit(code)`. -/
  | osExit (code : Nat)
  /-- A `panic(err)`. -/
  | panics
  /-- The `return` of single-target mode. -/
  | notImplemented
  /-- The pool is reached: whether the input file was opened, the lines the
  feeder will read, and the value of `-t`. -/
  | pipeline (opened : Bool) (lines : List String) (threads : Int)
  deriving DecidableEq, Repr

/-- Lines 33-93 of `main`. `compiler.GetRules()` and `rules.Save` are taken to
succeed (the code drops the error of the first and the result of the second).
A failed `os.Open` of the input file prints a message and goes on with a nil
file, from which the scanner reads no line. -/
def startup (flags : Flags) (env : Env) : Startup :=
  if flags.inputFileName = "" ∧ flags.targetURL = "" then .osExit 1
  else if !env.newCompiler then .panics
  else
    match ReadDir env flags.rulesDir with
    | none => .panics
    | some ruleFileList =>
      if !addRuleFiles env flags.rulesDir ruleFileList then .panics
      else if flags.targetURL ≠ "" then .notImplemented
      else if env.openOk flags.inputFileName then
        .pipeline true (env.scanLines flags.inputFileName) flags.threads
      else .pipeline false [] flags.threads

/-- A whole run of the program under the interleaving `sched`: the exit status
of the process and the ScanResults printed, or `none` when `sched` is not a
complete run. A return of `main` is status 0, `os.Exit(1)` is 1, a panic is 2. -/
def main (flags : Flags) (env : Env) (w : World) (sched : List Action) :
    Option (Nat × List ScanResult) :=
  match startup flags env with
  | .osExit code => some (code, [])
  | .panics => some (2, [])
  | .notImplemented => some (0, [])
  | .pipeline _ lines threads =>
    match run w (init lines threads) sched with
    | none => none
    | some s =>
      if s.mainDone then some (0, s.out)
      else if s.crashed then some (2, s.out)
      else none

/-! ## The step relation, case by case -/

/-- The enabled steps of `step`, one constructor per branch that returns a
state. -/
inductive Step (w : World) (s : State) : Action → State → Prop
  | feed (i : Nat) (line : String) (rest : List String)
      (hin : s.input = line :: rest) (hw : s.workers[i]? = some WState.idle)
      (hj : s.jobsClosed = false) :
      Step w s (.feed i) { s with input := rest, workers := s.workers.set i (.busy line) }
  | closeJobs (hin : s.input = []) (hj : s.jobsClosed = false) :
      Step w s .closeJobs { s with jobsClosed := true }
  | skip (i : Nat) (url : String) (hw : s.workers[i]? = some (WState.busy url))
      (ho : (workerIteration w url).outcome = .skipped) :
      Step w s (.work i) { s with workers := s.workers.set i .idle }
  | post (i : Nat) (url : String) (res : ScanResult)
      (hw : s.workers[i]? = some (WState.busy url))
      (ho : (workerIteration w url).outcome = .posted res) :
      Step w s (.work i) { s with workers := s.workers.set i (.sending res) }
  | crash (i : Nat) (url : String) (hw : s.workers[i]? = some (WState.busy url))
      (ho : (workerIteration w url).outcome = .panicked) :
      Step w s (.work i) { s with crashed := true }
  | collect (i : Nat) (res : ScanResult)
      (hw : s.workers[i]? = some (WState.sending res)) (hr : s.resultsClosed = false) :
      Step w s (.collect i) { s with workers := s.workers.set i .idle, out := s.out ++ [res] }
  | leave (i : Nat) (hw : s.workers[i]? = some WState.idle) (hj : s.jobsClosed = true) :
      Step w s (.leave i) { s with workers := s.workers.set i .done }
  | closeResults (hd : ∀ x ∈ s.workers, x = WState.done) (hr : s.resultsClosed = false) :
      Step w s .closeResults { s with resultsClosed := true }
  | mainReturn (hr : s.resultsClosed = true) :
      Step w s .mainReturn { s with mainDone := true }

/-- A state in which nothing runs any more: `main` has returned or the process
has died of a panic. -/
def State.terminal (s : State) : Bool :=
  s.mainDone || s.crashed

/-! ## Invariants, accounting and the termination measure -/

/-- What holds in every state a run reaches. -/
structure Inv (s : State) : Prop where
  closed_input : s.jobsClosed = true → s.input = []
  done_closed : WState.done ∈ s.workers → s.jobsClosed = true
  results_done : s.resultsClosed = true → ∀ x ∈ s.workers, x = WState.done
  main_results : s.mainDone = true → s.resultsClosed = true
  main_crash : s.mainDone = true → s.crashed = false

/-- What a worker still owes to the output, counted by `f` on a job not yet
processed and by `g` on a result not yet received. -/
def pend {β : Type} (f : String → Multiset β) (g : ScanResult → Multiset β) :
    WState → Multiset β
  | .busy url => f url
  | .sending res => g res
  | _ => 0

/-- Everything printed, in flight or still to come, counted by `f` and `g`. -/
def total {β : Type} (f : String → Multiset β) (g : ScanResult → Multiset β)
    (s : State) : Multiset β :=
  (s.out.map g).sum + (s.workers.map (pend f g)).sum + (s.input.map f).sum

/-- The counting functions agree with the loop body: `f` counts nothing for a
job the body skips, and what `g` counts on the result for a job it posts. -/
def Compatible {β : Type} (w : World) (f : String → Multiset β)
    (g : ScanResult → Multiset β) : Prop :=
  ∀ url, ((workerIteration w url).outcome = .skipped → f url = 0) ∧
    ∀ res, (workerIteration w url).outcome = .posted res → f url = g res

/-- The weight of a worker in the termination measure. -/
def weight : WState → Nat
  | .idle => 1
  | .busy _ => 3
  | .sending _ => 2
  | .done => 0

/-- A number every step makes smaller. -/
def measure (s : State) : Nat :=
  3 * s.input.length + (s.workers.map weight).sum
    + (if s.jobsClosed then 0 else 1) + (if s.resultsClosed then 0 else 1)
    + (if s.mainDone then 0 else 1) + (if s.crashed then 0 else 1)

/-- Every interleaving from `s0` is finite, of at most `measure s0` steps, and
never blocks: a state that is not terminal has an enabled step, so every
interleaving extends to a terminal state. In a well-formed world no goroutine
panics, so the terminal states are those in which `main` has returned. -/
def Terminates (w : World) (s0 : State) : Prop :=
  ∀ sched s, run w s0 sched = some s →
    sched.length ≤ measure s0 ∧
    (s.terminal = false → ∃ a s1, step w s a = some s1) ∧
    (∃ more s2, run w s0 (sched ++ more) = some s2 ∧ s2.terminal = true) ∧
    (WellFormed w → s.crashed = false)

/-! ## Header lines -/

/-- The line `name:value` of one header value, with its line end. -/
def headerEntry (k v : String) : String :=
  k ++ ":" ++ v ++ "\n"

/-- Every header line of a response: every field name paired with each of its
values. -/
def allHeaderLines (h : Header) : List String :=
  h.flatMap (fun kv => kv.2.map (headerEntry kv.1))

/-- The line of a field with its first value only. -/
def firstValueLine (kv : String × List String) : String :=
  headerEntry kv.1 (kv.2.headD "")

/-- The concatenation of a list of lines. -/
def concatLines : List String → String
  | [] => ""
  | l :: rest => l ++ concatLines rest

/-! ## Concrete worlds and runs -/

/-- A rule that fires on the marker of the demo body. -/
def bodyRule : MatchRule := { Rule := "wordpress_body", Namespace := "all" }

/-- A rule that fires on the `Server` line of the demo headers. -/
def headerRule : MatchRule := { Rule := "nginx_header", Namespace := "all" }

/-- A network with three hosts: `up.example` answers, `cut.example` answers but
its body breaks off while it is read, and every other URL cannot be reached.
The ruleset has the two rules above, each firing on one buffer only. -/
def demoWorld : World :=
  { httpGet := fun url =>
      if url = "http://up.example" then
        some { Header := [("Server", ["nginx"])], body := "wp-content", readErr := false }
      else if url = "http://cut.example" then
        some { Header := [("Server", ["nginx"])], body := "wp-", readErr := true }
      else none,
    scanMem := fun buf =>
      if buf = "wp-content" then [bodyRule]
      else if buf = "Server:nginx\n" then [headerRule]
      else [] }

/-- The same network with a ruleset of zero rules. -/
def noRulesWorld : World :=
  { httpGet := demoWorld.httpGet, scanMem := fun _ => [] }

/-- The ScanResult of `up.example` in `demoWorld`. -/
def upResult : ScanResult :=
  { URL := "http://up.example", CPESlice := [],
    Matches := [[bodyRule], [bodyRule, headerRule]] }

/-- The ScanResult of `cut.example` in `demoWorld`. -/
def cutResult : ScanResult :=
  { URL := "http://cut.example", CPESlice := [], Matches := [[], [headerRule]] }

/-- An input list of three targets, the first of them unreachable. -/
def demoLines : List String :=
  ["http://down.example", "http://up.example", "http://cut.example"]

/-- The run of `demoLines` with one worker. -/
def schedOne : List Action :=
  [.feed 0, .work 0, .feed 0, .work 0, .collect 0, .feed 0, .work 0, .collect 0,
   .closeJobs, .leave 0, .closeResults, .mainReturn]

/-- A run of `demoLines` with two workers in which the later target is printed
first. -/
def schedTwo : List Action :=
  [.feed 1, .feed 0, .work 0, .work 1, .feed 1, .work 1, .collect 1, .collect 0,
   .closeJobs, .leave 1, .leave 0, .closeResults, .mainReturn]

/-- The state in which a finished run with `k` workers that printed `out`
ends. -/
def finalState (k : Nat) (out : List ScanResult) : State :=
  { input := [], jobsClosed := true, workers := List.replicate k WState.done,
    resultsClosed := true, out := out, mainDone := true, crashed := false }

/-- A file system with one rule file and the input file `targets.txt`. -/
def demoEnv : Env :=
  { newCompiler := true,
    ioutilReadDir := fun dir => if dir = "../rules" then some ["cms.yar"] else none,
    pathJoin := fun dir name => dir ++ "/" ++ name,
    openOk := fun path => path = "../rules/cms.yar" || path = "targets.txt",
    addFileOk := fun _ => true,
    scanLines := fun path => if path = "targets.txt" then demoLines else [] }

/-- The flags `-i targets.txt -t 0`. -/
def zeroThreadsFlags : Flags :=
  { inputFileName := "targets.txt", targetURL := "", rulesDir := "../rules",
    threads := 0, debug := false }

/-- The flags `-i missing.txt` with the defaults `-r ../rules -t 5`. -/
def missingFileFlags : Flags :=
  { inputFileName := "missing.txt", targetURL := "", rulesDir := "../rules",
    threads := 5, debug := false }

/-! ## Theorems -/

theorem step_running {w : World} {s s1 : State} {a : Action}
    (h : step w s a = some s1) : s.mainDone = false ∧ s.crashed = false := by
  unfold step at h
  split at h
  · exact absurd h (by simp)
  · rename_i hn
    simpa using hn

theorem step_sound {w : World} {s s1 : State} {a : Action}
    (h : step w s a = some s1) : Step w s a s1 := by
  have hrun := step_running h
  unfold step at h
  rw [if_neg (by simp [hrun.1, hrun.2])] at h
  cases a with
  | feed i =>
    simp only at h
    split at h
    · rename_i line rest hin hw
      split at h
      · exact absurd h (by simp)
      · rename_i hj
        cases h
        exact Step.feed i line rest hin hw (by simpa using hj)
    · exact absurd h (by simp)
  | closeJobs =>
    simp only at h
    split at h
    · rename_i hin
      split at h
      · exact absurd h (by simp)
      · rename_i hj
        cases h
        exact Step.closeJobs hin (by simpa using hj)
    · exact absurd h (by simp)
  | work i =>
    simp only at h
    split at h
    · rename_i url hw
      split at h
      · rename_i ho
        cases h
        exact Step.skip i url hw ho
      · rename_i res ho
        cases h
        exact Step.post i url res hw ho
      · rename_i ho
        cases h
        exact Step.crash i url hw ho
    · exact absurd h (by simp)
  | collect i =>
    simp only at h
    split at h
    · rename_i res hw
      split at h
      · exact absurd h (by simp)
      · rename_i hr
        cases h
        exact Step.collect i res hw (by simpa using hr)
    · exact absurd h (by simp)
  | leave i =>
    simp only at h
    split at h
    · rename_i hw
      split at h
      · rename_i hj
        cases h
        exact Step.leave i hw hj
      · exact absurd h (by simp)
    · exact absurd h (by simp)
  | closeResults =>
    simp only at h
    split at h
    · rename_i hc
      cases h
      simp only [Bool.and_eq_true, List.all_eq_true, decide_eq_true_eq,
        Bool.not_eq_true'] at hc
      exact Step.closeResults hc.1 hc.2
    · exact absurd h (by simp)
  | mainReturn =>
    simp only at h
    split at h
    · rename_i hr
      cases h
      exact Step.mainReturn hr
    · exact absurd h (by simp)

theorem step_complete {w : World} {s s1 : State} {a : Action}
    (hm : s.mainDone = false) (hc : s.crashed = false) (h : Step w s a s1) :
    step w s a = some s1 := by
  unfold step
  rw [if_neg (by simp [hm, hc])]
  cases h with
  | feed i line rest hin hw hj => simp [hin, hw, hj]
  | closeJobs hin hj => simp [hin, hj]
  | skip i url hw ho => simp [hw, ho]
  | post i url res hw ho => simp [hw, ho]
  | crash i url hw ho => simp [hw, ho]
  | collect i res hw hr => simp [hw, hr]
  | leave i hw hj => simp [hw, hj]
  | closeResults hd hr =>
    have : (s.workers.all fun x => decide (x = WState.done)) = true := by
      simpa [List.all_eq_true] using hd
    simp [this, hr]
  | mainReturn hr => simp [hr]

/-! ### Replacing one worker -/

theorem sum_map_set {M : Type} [AddCommMonoid M] (p : WState → M) :
    ∀ (ws : List WState) (i : Nat) (x y : WState), ws[i]? = some x →
      ((ws.set i y).map p).sum + p x = (ws.map p).sum + p y := by
  intro ws
  induction ws with
  | nil => intro i x y h; simp at h
  | cons a rest ih =>
    intro i x y h
    cases i with
    | zero =>
      simp only [List.getElem?_cons_zero, Option.some.injEq] at h
      subst h
      simp only [List.set_cons_zero, List.map_cons, List.sum_cons]
      rw [add_assoc, add_comm (rest.map p).sum, ← add_assoc, add_comm (p y), add_assoc,
        add_assoc, add_comm (p y)]
    | succ n =>
      simp only [List.getElem?_cons_succ] at h
      simp only [List.set_cons_succ, List.map_cons, List.sum_cons]
      rw [add_assoc, ih n x y h, add_assoc]

/-! ### Accounting -/

theorem step_total {β : Type} {w : World} {f : String → Multiset β}
    {g : ScanResult → Multiset β} (hc : Compatible w f g) {s s1 : State} {a : Action}
    (h : Step w s a s1) (hs1 : s1.crashed = false) : total f g s1 = total f g s := by
  cases h with
  | feed i line rest hin hw hj =>
    have e := sum_map_set (pend f g) s.workers i _ (WState.busy line) hw
    simp only [pend, add_zero] at e
    simp only [total, hin, List.map_cons, List.sum_cons, e]
    abel
  | closeJobs hin hj => rfl
  | skip i url hw ho =>
    have e := sum_map_set (pend f g) s.workers i _ WState.idle hw
    simp only [pend, add_zero, (hc url).1 ho] at e
    simp only [total, e]
  | post i url res hw ho =>
    have e := sum_map_set (pend f g) s.workers i _ (WState.sending res) hw
    simp only [pend, (hc url).2 res ho] at e
    simp only [total, add_right_cancel e]
  | crash i url hw ho => simp at hs1
  | collect i res hw hr =>
    have e := sum_map_set (pend f g) s.workers i _ WState.idle hw
    simp only [pend, add_zero] at e
    simp only [total, List.map_append, List.sum_append, List.map_cons, List.map_nil,
      List.sum_cons, List.sum_nil, add_zero, ← e]
    abel
  | leave i hw hj =>
    have e := sum_map_set (pend f g) s.workers i _ WState.done hw
    simp only [pend, add_zero] at e
    simp only [total, e]
  | closeResults hd hr => rfl
  | mainReturn hr => rfl

/-! ### The termination measure -/

theorem step_measure {w : World} {s s1 : State} {a : Action}
    (hm : s.mainDone = false) (hc : s.crashed = false) (h : Step w s a s1) :
    measure s1 < measure s := by
  cases h with
  | feed i line rest hin hw hj =>
    have e := sum_map_set weight s.workers i _ (WState.busy line) hw
    simp only [weight] at e
    simp only [measure, hin, List.length_cons, hm, hc, hj]
    omega
  | closeJobs hin hj => simp [measure, hj]
  | skip i url hw ho =>
    have e := sum_map_set weight s.workers i _ WState.idle hw
    simp only [weight] at e
    simp only [measure]
    omega
  | post i url res hw ho =>
    have e := sum_map_set weight s.workers i _ (WState.sending res) hw
    simp only [weight] at e
    simp only [measure]
    omega
  | crash i url hw ho => simp [measure, hc]
  | collect i res hw hr =>
    have e := sum_map_set weight s.workers i _ WState.idle hw
    simp only [weight] at e
    simp only [measure]
    omega
  | leave i hw hj =>
    have e := sum_map_set weight s.workers i _ WState.done hw
    simp only [weight] at e
    simp only [measure]
    omega
  | closeResults hd hr => simp [measure, hr]
  | mainReturn hr => simp [measure, hm]

/-! ### The invariant -/

theorem inv_init (lines : List String) (threads : Int) : Inv (init lines threads) := by
  constructor
  · intro h; simp [init] at h
  · intro h
    simp only [init, startWorkers] at h
    have := List.eq_of_mem_replicate h
    cases this
  · intro h; simp [init] at h
  · intro h; simp [init] at h
  · intro h; simp [init] at h

theorem mem_set_done {ws : List WState} {i : Nat} {y : WState}
    (hy : y ≠ WState.done) (h : WState.done ∈ ws.set i y) : WState.done ∈ ws := by
  rcases List.mem_or_eq_of_mem_set h with h1 | h1
  · exact h1
  · exact absurd h1.symm hy

theorem not_all_done {ws : List WState} {i : Nat} {x : WState}
    (hw : ws[i]? = some x) (hx : x ≠ WState.done)
    (hall : ∀ y ∈ ws, y = WState.done) : False :=
  hx (hall x (List.getElem?_mem hw))

theorem inv_step {w : World} {s s1 : State} {a : Action}
    (hm : s.mainDone = false) (hc : s.crashed = false) (hi : Inv s)
    (h : Step w s a s1) : Inv s1 := by
  obtain ⟨i1, i2, i3, i4, i5⟩ := hi
  cases h with
  | feed i line rest hin hw hj =>
    refine ⟨fun h => ?_, fun h => ?_, fun h => ?_, fun h => ?_, fun h => ?_⟩
    · simp [hj] at h
    · exact i2 (mem_set_done (by simp) h)
    · exact (not_all_done hw (by simp) (i3 h)).elim
    · simp [hm] at h
    · simp [hm] at h
  | closeJobs hin hj =>
    exact ⟨fun _ => hin, fun _ => rfl, i3, i4, i5⟩
  | skip i url hw ho =>
    refine ⟨i1, fun h => ?_, fun h => ?_, i4, i5⟩
    · exact i2 (mem_set_done (by simp) h)
    · exact (not_all_done hw (by simp) (i3 h)).elim
  | post i url res hw ho =>
    refine ⟨i1, fun h => ?_, fun h => ?_, i4, i5⟩
    · exact i2 (mem_set_done (by simp) h)
    · exact (not_all_done hw (by simp) (i3 h)).elim
  | crash i url hw ho =>
    refine ⟨i1, i2, i3, i4, fun h => ?_⟩
    simp [hm] at h
  | collect i res hw hr =>
    refine ⟨i1, fun h => ?_, fun h => ?_, i4, i5⟩
    · exact i2 (mem_set_done (by simp) h)
    · exact (not_all_done hw (by simp) (i3 h)).elim
  | leave i hw hj =>
    refine ⟨i1, fun _ => hj, fun h => ?_, i4, i5⟩
    exact (not_all_done hw (by simp) (i3 h)).elim
  | closeResults hd hr =>
    exact ⟨i1, i2, fun _ => hd, fun _ => rfl, i5⟩
  | mainReturn hr =>
    exact ⟨i1, i2, i3, fun _ => hr, fun _ => hc⟩

theorem step_workers_length {w : World} {s s1 : State} {a : Action}
    (h : Step w s a s1) : s1.workers.length = s.workers.length := by
  cases h <;> simp

/-! ### Progress -/

theorem workers_cases (ws : List WState) :
    (∀ x ∈ ws, x = WState.done) ∨
      ∃ (i : Nat) (x : WState), ws[i]? = some x ∧ x ≠ WState.done := by
  induction ws with
  | nil => left; simp
  | cons a rest ih =>
    by_cases ha : a = WState.done
    · rcases ih with h | ⟨i, x, hx, hne⟩
      · left
        intro y hy
        rcases List.mem_cons.1 hy with h1 | h1
        · rw [h1]; exact ha
        · exact h y h1
      · right
        exact ⟨i + 1, x, by simpa using hx, hne⟩
    · right
      exact ⟨0, a, by simp, ha⟩

theorem progress (w : World) (s : State) (ht : s.terminal = false) :
    ∃ a s1, step w s a = some s1 := by
  have hm : s.mainDone = false := by
    simp only [State.terminal, Bool.or_eq_false_iff] at ht
    exact ht.1
  have hc : s.crashed = false := by
    simp only [State.terminal, Bool.or_eq_false_iff] at ht
    exact ht.2
  cases hr : s.resultsClosed with
  | true => exact ⟨.mainReturn, _, step_complete hm hc (Step.mainReturn hr)⟩
  | false =>
    rcases workers_cases s.workers with hall | ⟨i, x, hx, hne⟩
    · exact ⟨.closeResults, _, step_complete hm hc (Step.closeResults hall hr)⟩
    · cases x with
      | done => exact absurd rfl hne
      | sending res => exact ⟨.collect i, _, step_complete hm hc (Step.collect i res hx hr)⟩
      | busy url =>
        cases ho : (workerIteration w url).outcome with
        | skipped => exact ⟨.work i, _, step_complete hm hc (Step.skip i url hx ho)⟩
        | posted res => exact ⟨.work i, _, step_complete hm hc (Step.post i url res hx ho)⟩
        | panicked => exact ⟨.work i, _, step_complete hm hc (Step.crash i url hx ho)⟩
      | idle =>
        cases hj : s.jobsClosed with
        | true => exact ⟨.leave i, _, step_complete hm hc (Step.leave i hx hj)⟩
        | false =>
          cases hin : s.input with
          | nil => exact ⟨.closeJobs, _, step_complete hm hc (Step.closeJobs hin hj)⟩
          | cons line rest =>
            exact ⟨.feed i, _, step_complete hm hc (Step.feed i line rest hin hx hj)⟩

/-! ### Whole interleavings -/

theorem run_cons {w : World} {s s1 : State} {a : Action} {rest : List Action}
    (h : run w s (a :: rest) = some s1) :
    ∃ s2, step w s a = some s2 ∧ run w s2 rest = some s1 := by
  simp only [run] at h
  split at h
  · exact absurd h (by simp)
  · rename_i s2 hs
    exact ⟨s2, hs, h⟩

theorem run_terminal {w : World} {s s1 : State} {sched : List Action}
    (ht : s.terminal = true) (h : run w s sched = some s1) : s1 = s ∧ sched = [] := by
  cases sched with
  | nil => simp only [run, Option.some.injEq] at h; exact ⟨h.symm, rfl⟩
  | cons a rest =>
    obtain ⟨s2, hs, _⟩ := run_cons h
    have := step_running hs
    simp [State.terminal, this.1, this.2] at ht

theorem run_append (w : World) (s : State) (xs ys : List Action) :
    run w s (xs ++ ys) = (run w s xs).bind (fun s1 => run w s1 ys) := by
  induction xs generalizing s with
  | nil => simp [run]
  | cons a rest ih =>
    simp only [List.cons_append, run]
    cases step w s a with
    | none => simp
    | some s2 => simpa using ih s2

theorem run_inv {w : World} {s s1 : State} {sched : List Action}
    (hi : Inv s) (h : run w s sched = some s1) : Inv s1 := by
  induction sched generalizing s with
  | nil => simp only [run, Option.some.injEq] at h; exact h ▸ hi
  | cons a rest ih =>
    obtain ⟨s2, hs, hr⟩ := run_cons h
    have hrun := step_running hs
    exact ih (inv_step hrun.1 hrun.2 hi (step_sound hs)) hr

theorem run_workers_length {w : World} {s s1 : State} {sched : List Action}
    (h : run w s sched = some s1) : s1.workers.length = s.workers.length := by
  induction sched generalizing s with
  | nil => simp only [run, Option.some.injEq] at h; rw [h]
  | cons a rest ih =>
    obtain ⟨s2, hs, hr⟩ := run_cons h
    rw [ih hr, step_workers_length (step_sound hs)]

theorem run_measure {w : World} {s s1 : State} {sched : List Action}
    (h : run w s sched = some s1) : measure s1 + sched.length ≤ measure s := by
  induction sched generalizing s with
  | nil => simp only [run, Option.some.injEq] at h; simp [h]
  | cons a rest ih =>
    obtain ⟨s2, hs, hr⟩ := run_cons h
    have hrun := step_running hs
    have := step_measure hrun.1 hrun.2 (step_sound hs)
    have := ih hr
    simp only [List.length_cons]
    omega

theorem run_total {β : Type} {w : World} {f : String → Multiset β}
    {g : ScanResult → Multiset β} (hc : Compatible w f g) {s s1 : State}
    {sched : List Action} (h : run w s sched = some s1) (hs1 : s1.crashed = false) :
    total f g s1 = total f g s := by
  induction sched generalizing s with
  | nil => simp only [run, Option.some.injEq] at h; rw [h]
  | cons a rest ih =>
    obtain ⟨s2, hs, hr⟩ := run_cons h
    cases h2 : s2.crashed with
    | true =>
      have := (run_terminal (by simp [State.terminal, h2]) hr).1
      rw [this, h2] at hs1
      cases hs1
    | false => rw [ih hr, step_total hc (step_sound hs) h2]

theorem completion (w : World) :
    ∀ (n : Nat) (s : State), measure s ≤ n →
      ∃ more s2, run w s more = some s2 ∧ s2.terminal = true := by
  intro n
  induction n with
  | zero =>
    intro s hs
    cases ht : s.terminal with
    | true => exact ⟨[], s, rfl, ht⟩
    | false =>
      obtain ⟨a, s1, h1⟩ := progress w s ht
      have hrun := step_running h1
      have := step_measure hrun.1 hrun.2 (step_sound h1)
      omega
  | succ n ih =>
    intro s hs
    cases ht : s.terminal with
    | true => exact ⟨[], s, rfl, ht⟩
    | false =>
      obtain ⟨a, s1, h1⟩ := progress w s ht
      have hrun := step_running h1
      have := step_measure hrun.1 hrun.2 (step_sound h1)
      obtain ⟨more, s2, h2, t2⟩ := ih s1 (by omega)
      exact ⟨a :: more, s2, by simp [run, h1, h2], t2⟩

/-! ### The loop body -/

theorem iteration_of_get_error {w : World} {url : String} (h : w.httpGet url = none) :
    workerIteration w url = { outcome := .skipped, scans := [] } := by
  simp [workerIteration, h]

theorem iteration_of_get_ok {w : World} {url : String} {resp : Response}
    (h : w.httpGet url = some resp) :
    workerIteration w url =
      match headersToBytes resp.Header with
      | none => { outcome := .panicked, scans := [] }
      | some headerBytes =>
        { outcome := .posted
            { URL := url, CPESlice := [],
              Matches := [w.scanMem resp.body,
                w.scanMem resp.body ++ w.scanMem headerBytes] },
          scans := [resp.body, headerBytes] } := by
  simp only [workerIteration, h]
  cases headersToBytes resp.Header <;> simp

theorem skipped_iff {w : World} {url : String} :
    (workerIteration w url).outcome = .skipped ↔ getOk w url = false := by
  cases h : w.httpGet url with
  | none => simp [iteration_of_get_error h, getOk, h]
  | some resp =>
    rw [iteration_of_get_ok h]
    cases headersToBytes resp.Header <;> simp [getOk, h]

theorem posted_url {w : World} {url : String} {res : ScanResult}
    (ho : (workerIteration w url).outcome = .posted res) :
    getOk w url = true ∧ res.URL = url := by
  cases h : w.httpGet url with
  | none => simp [iteration_of_get_error h] at ho
  | some resp =>
    rw [iteration_of_get_ok h] at ho
    cases hb : headersToBytes resp.Header with
    | none => simp [hb] at ho
    | some headerBytes =>
      simp only [hb, Outcome.posted.injEq] at ho
      subst ho
      simp [getOk, h]

theorem headersLoop_isSome (h : Header) (hne : ∀ kv ∈ h, kv.2 ≠ []) :
    ∀ acc, ∃ buf, headersLoop h acc = some buf := by
  induction h with
  | nil => intro acc; exact ⟨acc, rfl⟩
  | cons kv rest ih =>
    intro acc
    obtain ⟨k, v⟩ := kv
    cases v with
    | nil => exact absurd rfl (hne (k, []) (by simp))
    | cons v0 vs =>
      simp only [headersLoop, headerLine]
      exact ih (fun kv hkv => hne kv (List.mem_cons_of_mem _ hkv)) _

theorem wellFormed_not_panicked {w : World} (hw : WellFormed w) (url : String) :
    (workerIteration w url).outcome ≠ .panicked := by
  cases h : w.httpGet url with
  | none => simp [iteration_of_get_error h]
  | some resp =>
    rw [iteration_of_get_ok h]
    obtain ⟨buf, hb⟩ := headersLoop_isSome resp.Header (hw url resp h) ""
    simp [headersToBytes, hb]

theorem step_no_crash {w : World} (hw : WellFormed w) {s s1 : State} {a : Action}
    (hc : s.crashed = false) (h : Step w s a s1) : s1.crashed = false := by
  cases h with
  | crash i url hw1 ho => exact absurd ho (wellFormed_not_panicked hw url)
  | _ => exact hc

theorem run_no_crash {w : World} (hw : WellFormed w) {s s1 : State}
    {sched : List Action} (hc : s.crashed = false) (h : run w s sched = some s1) :
    s1.crashed = false := by
  induction sched generalizing s with
  | nil => simp only [run, Option.some.injEq] at h; rw [← h]; exact hc
  | cons a rest ih =>
    obtain ⟨s2, hs, hr⟩ := run_cons h
    exact ih (step_no_crash hw hc (step_sound hs)) hr

theorem terminates_init (w : World) (lines : List String) (threads : Int) :
    Terminates w (init lines threads) := by
  intro sched s h
  refine ⟨?_, progress w s, ?_, fun hw => run_no_crash hw rfl h⟩
  · have := run_measure h
    omega
  · obtain ⟨more, s2, h2, t2⟩ := completion w (measure s) s (le_refl _)
    exact ⟨more, s2, by simp [run_append, h, h2], t2⟩

/-! ### What a finished run has printed -/

theorem finished_total {β : Type} (f : String → Multiset β) (g : ScanResult → Multiset β)
    {s : State} (hi : Inv s) (hm : s.mainDone = true) (hk : 1 ≤ s.workers.length) :
    total f g s = (s.out.map g).sum := by
  have hall := hi.results_done (hi.main_results hm)
  have hin : s.input = [] := by
    apply hi.closed_input
    apply hi.done_closed
    cases hws : s.workers with
    | nil => simp [hws] at hk
    | cons x rest =>
      have : x = WState.done := hall x (by simp [hws])
      simp [this]
  have hp : (s.workers.map (pend f g)).sum = 0 := by
    apply List.sum_eq_zero
    intro m hmem
    obtain ⟨x, hx, rfl⟩ := List.mem_map.1 hmem
    rw [hall x hx]
    rfl
  simp [total, hin, hp]

theorem init_total {β : Type} (f : String → Multiset β) (g : ScanResult → Multiset β)
    (lines : List String) (threads : Int) :
    total f g (init lines threads) = (lines.map f).sum := by
  have hp : ((startWorkers threads).map (pend f g)).sum = 0 := by
    apply List.sum_eq_zero
    intro m hmem
    obtain ⟨x, hx, rfl⟩ := List.mem_map.1 hmem
    rw [List.eq_of_mem_replicate hx]
    rfl
  simp [total, init, hp]

theorem finished_sum {β : Type} {w : World} {f : String → Multiset β}
    {g : ScanResult → Multiset β} (hc : Compatible w f g) {lines : List String}
    {K : Int} (hK : 1 ≤ K) {sched : List Action} {s : State}
    (h : run w (init lines K) sched = some s) (hm : s.mainDone = true) :
    (s.out.map g).sum = (lines.map f).sum := by
  have hi := run_inv (inv_init lines K) h
  have hlen : 1 ≤ s.workers.length := by
    rw [run_workers_length h]
    simp only [init, startWorkers, List.length_replicate]
    omega
  rw [← finished_total f g hi hm hlen, run_total hc h (hi.main_crash hm), init_total]

theorem sum_singletons {α : Type} (l : List α) :
    (l.map (fun x => ({x} : Multiset α))).sum = (l : Multiset α) := by
  induction l with
  | nil => rfl
  | cons x rest ih =>
    rw [List.map_cons, List.sum_cons, ih, Multiset.singleton_add, Multiset.cons_coe]

theorem sum_filterMap {α β : Type} (p : α → Option β) (l : List α) :
    (l.map (fun x => ((p x).toList : Multiset β))).sum = (l.filterMap p : Multiset β) := by
  induction l with
  | nil => rfl
  | cons x rest ih =>
    rw [List.map_cons, List.sum_cons, ih]
    cases hp : p x with
    | none => simp [List.filterMap_cons, hp]
    | some y => simp [List.filterMap_cons, hp]

theorem compatible_results (w : World) :
    Compatible w (fun url => ((expected w url).toList : Multiset ScanResult))
      (fun res => {res}) := by
  intro url
  constructor
  · intro ho; simp [expected, ho]
  · intro res ho; simp [expected, ho]

theorem compatible_urls (w : World) :
    Compatible w (fun url => (((if getOk w url then some url else none).toList :
      List String) : Multiset String)) (fun res => {res.URL}) := by
  intro url
  constructor
  · intro ho; simp [skipped_iff.1 ho]
  · intro res ho
    obtain ⟨h1, h2⟩ := posted_url ho
    simp [h1, h2]

theorem filterMap_ite {α : Type} (p : α → Bool) (l : List α) :
    l.filterMap (fun x => if p x then some x else none) = l.filter p := by
  induction l with
  | nil => rfl
  | cons x rest ih =>
    cases hx : p x <;> simp [List.filterMap_cons, List.filter_cons, hx, ih]

theorem finished_results {w : World} {lines : List String} {K : Int} (hK : 1 ≤ K)
    {sched : List Action} {s : State} (h : run w (init lines K) sched = some s)
    (hm : s.mainDone = true) : s.out.Perm (lines.filterMap (expected w)) := by
  have e := finished_sum (compatible_results w) hK h hm
  rw [sum_singletons, sum_filterMap] at e
  exact Multiset.coe_eq_coe.1 e

theorem finished_urls {w : World} {lines : List String} {K : Int} (hK : 1 ≤ K)
    {sched : List Action} {s : State} (h : run w (init lines K) sched = some s)
    (hm : s.mainDone = true) :
    (s.out.map ScanResult.URL).Perm (lines.filter (getOk w)) := by
  have e := finished_sum (compatible_urls w) hK h hm
  have e1 : (s.out.map (fun res => ({res.URL} : Multiset String))).sum
      = ((s.out.map ScanResult.URL : List String) : Multiset String) := by
    rw [← sum_singletons, List.map_map]
    rfl
  rw [e1, sum_filterMap (fun url => if getOk w url then some url else none),
    filterMap_ite (getOk w) lines] at e
  exact Multiset.coe_eq_coe.1 e

/-! ### `headersToBytes` -/

theorem concatLines_append (xs ys : List String) :
    concatLines (xs ++ ys) = concatLines xs ++ concatLines ys := by
  induction xs with
  | nil => simp [concatLines]
  | cons x rest ih => simp [concatLines, ih, String.append_assoc]

theorem headersLoop_eq (h : Header) (hne : ∀ kv ∈ h, kv.2 ≠ []) :
    ∀ acc, headersLoop h acc =
      some (concatLines (h.reverse.map firstValueLine) ++ acc) := by
  induction h with
  | nil => intro acc; simp [headersLoop, concatLines]
  | cons kv rest ih =>
    intro acc
    obtain ⟨k, v⟩ := kv
    cases v with
    | nil => exact absurd rfl (hne (k, []) (by simp))
    | cons v0 vs =>
      simp only [headersLoop, headerLine]
      rw [ih (fun kv hkv => hne kv (List.mem_cons_of_mem _ hkv))]
      simp [concatLines_append, concatLines, firstValueLine, headerEntry,
        String.append_assoc]

/-! ### Runs without workers -/

theorem step_no_workers {w : World} {s s1 : State} {a : Action}
    (hw : s.workers = []) (ho : s.out = []) (hc : s.crashed = false)
    (h : Step w s a s1) : s1.workers = [] ∧ s1.out = [] ∧ s1.crashed = false := by
  cases h with
  | feed i line rest hin hw1 hj => simp [hw] at hw1
  | closeJobs hin hj => exact ⟨hw, ho, hc⟩
  | skip i url hw1 ho1 => simp [hw] at hw1
  | post i url res hw1 ho1 => simp [hw] at hw1
  | crash i url hw1 ho1 => simp [hw] at hw1
  | collect i res hw1 hr => simp [hw] at hw1
  | leave i hw1 hj => simp [hw] at hw1
  | closeResults hd hr => exact ⟨hw, ho, hc⟩
  | mainReturn hr => exact ⟨hw, ho, hc⟩

theorem run_no_workers {w : World} {s s1 : State} {sched : List Action}
    (hw : s.workers = []) (ho : s.out = []) (hc : s.crashed = false)
    (h : run w s sched = some s1) :
    s1.workers = [] ∧ s1.out = [] ∧ s1.crashed = false := by
  induction sched generalizing s with
  | nil => simp only [run, Option.some.injEq] at h; rw [← h]; exact ⟨hw, ho, hc⟩
  | cons a rest ih =>
    obtain ⟨s2, hs, hr⟩ := run_cons h
    obtain ⟨h1, h2, h3⟩ := step_no_workers hw ho hc (step_sound hs)
    exact ih h1 h2 h3 hr

theorem run_no_workers_input {w : World} {s s1 : State} {sched : List Action}
    (hw : s.workers = []) (h : run w s sched = some s1) : s1.input = s.input := by
  induction sched generalizing s with
  | nil => simp only [run, Option.some.injEq] at h; rw [← h]
  | cons a rest ih =>
    obtain ⟨s2, hs, hr⟩ := run_cons h
    have h2 : s2.workers = [] ∧ s2.input = s.input := by
      cases step_sound hs with
      | feed i line rest1 hin hw1 hj => simp [hw] at hw1
      | closeJobs hin hj => exact ⟨hw, rfl⟩
      | skip i url hw1 ho1 => simp [hw] at hw1
      | post i url res hw1 ho1 => simp [hw] at hw1
      | crash i url hw1 ho1 => simp [hw] at hw1
      | collect i res hw1 hr1 => simp [hw] at hw1
      | leave i hw1 hj => simp [hw] at hw1
      | closeResults hd hr1 => exact ⟨hw, rfl⟩
      | mainReturn hr1 => exact ⟨hw, rfl⟩
    rw [ih h2.1 hr, h2.2]

theorem startup_threads {flags : Flags} {env : Env} {opened : Bool}
    {lines : List String} {threads : Int}
    (h : startup flags env = .pipeline opened lines threads) :
    threads = flags.threads := by
  unfold startup at h
  split at h
  · cases h
  · split at h
    · cases h
    · split at h
      · cases h
      · split at h
        · cases h
        · split at h
          · cases h
          · split at h
            · cases h; rfl
            · cases h; rfl

/-! ## The claims -/

/-- C1, as the code has it: for every input of N distinct target lines and every
worker count K >= 1, under every interleaving the run comes to an end, and a
finished run has printed exactly as many ScanResults as there are targets whose
`http.Get` succeeded, no two of them for the same target; that is N results
when every fetch succeeds. -/
theorem collector_emits_one_result_per_fetched_target (w : World)
    (lines : List String) (K : Int) (hd : lines.Nodup) (hK : 1 ≤ K) :
    Terminates w (init lines K) ∧
    ∀ sched s, run w (init lines K) sched = some s → s.mainDone = true →
      s.out.length = (lines.filter (getOk w)).length ∧
      (s.out.map ScanResult.URL).Nodup ∧
      ((∀ url ∈ lines, getOk w url = true) → s.out.length = lines.length) := by
  refine ⟨terminates_init w lines K, fun sched s h hm => ?_⟩
  have hp := finished_urls hK h hm
  have hl : s.out.length = (lines.filter (getOk w)).length := by
    rw [← hp.length_eq, List.length_map]
  refine ⟨hl, hp.symm.nodup (hd.filter _), fun hall => ?_⟩
  rw [hl, List.filter_length_eq_length.2 hall]

/-- C1, an instance: the three distinct lines of `demoLines`, two workers; the
finished run `schedTwo` printed two results, one per reachable target. -/
theorem collector_emits_one_result_per_fetched_target_witness :
    (finalState 2 [cutResult, upResult]).out.length
        = (demoLines.filter (getOk demoWorld)).length ∧
      ((finalState 2 [cutResult, upResult]).out.map ScanResult.URL).Nodup ∧
      ((∀ url ∈ demoLines, getOk demoWorld url = true) →
        (finalState 2 [cutResult, upResult]).out.length = demoLines.length) :=
  (collector_emits_one_result_per_fetched_target demoWorld demoLines 2
    (by decide) (by decide)).2 schedTwo (finalState 2 [cutResult, upResult])
    (by decide) rfl

/-- C1 as stated fails: one target line, one worker, the fetch fails; the run
finishes and the collector loop has printed no ScanResult, not one. -/
theorem unreachable_target_emits_nothing :
    ["http://down.example"].Nodup ∧
    run demoWorld (init ["http://down.example"] 1)
        [.feed 0, .work 0, .closeJobs, .leave 0, .closeResults, .mainReturn]
      = some (finalState 1 []) ∧
    (finalState 1 []).mainDone = true ∧
    (finalState 1 []).out.length ≠ ["http://down.example"].length := by
  decide

/-- C2, as the code has it: for every target whose `http.Get` returns an error,
the worker that holds it sends nothing on the results channel (the output and
every other worker are unchanged) and is back at `range jobs`, ready for the
next target. -/
theorem failed_get_skips_target (w : World) (s : State) (i : Nat) (url : String)
    (hget : w.httpGet url = none) (hrun : s.terminal = false)
    (hw : s.workers[i]? = some (WState.busy url)) :
    step w s (.work i) = some { s with workers := s.workers.set i .idle } := by
  have ht : s.mainDone = false ∧ s.crashed = false := by
    simpa [State.terminal] using hrun
  have ho : (workerIteration w url).outcome = .skipped := by
    rw [iteration_of_get_error hget]
  exact step_complete ht.1 ht.2 (Step.skip i url hw ho)

/-- C2, an instance: worker 0 holds the unreachable target of `demoWorld`. -/
theorem failed_get_skips_target_witness :
    step demoWorld
        { input := ["http://up.example"], jobsClosed := false,
          workers := [.busy "http://down.example", .idle], resultsClosed := false,
          out := [], mainDone := false, crashed := false } (.work 0)
      = some
        { input := ["http://up.example"], jobsClosed := false,
          workers := [.idle, .idle], resultsClosed := false,
          out := [], mainDone := false, crashed := false } :=
  failed_get_skips_target demoWorld
    { input := ["http://up.example"], jobsClosed := false,
      workers := [.busy "http://down.example", .idle], resultsClosed := false,
      out := [], mainDone := false, crashed := false } 0 "http://down.example"
    (by decide) (by decide) (by decide)

/-- C2 as stated fails: for the unreachable target of `demoWorld` the loop body
ends in the `continue`; no ScanResult is posted for it. -/
theorem failed_get_posts_no_result :
    demoWorld.httpGet "http://down.example" = none ∧
    ¬ ∃ res, (workerIteration demoWorld "http://down.example").outcome
        = Outcome.posted res := by
  refine ⟨by decide, ?_⟩
  rintro ⟨res, h⟩
  have e : (workerIteration demoWorld "http://down.example").outcome = .skipped := by
    decide
  rw [e] at h
  cases h

/-- C3, the code at the failing input: a body rule that fires on the body only
and a header rule that fires on the header buffer only; the posted ScanResult
has the body match alone in its first entry, and in its second entry the body
match again, followed by the header match. -/
theorem header_entry_repeats_body_match :
    demoWorld.scanMem "wp-content" = [bodyRule] ∧
    demoWorld.scanMem "Server:nginx\n" = [headerRule] ∧
    workerIteration demoWorld "http://up.example" =
      { outcome := .posted
          { URL := "http://up.example", CPESlice := [],
            Matches := [[bodyRule], [bodyRule, headerRule]] },
        scans := ["wp-content", "Server:nginx\n"] } := by
  decide

/-- C4, as the code has it: when the ruleset has zero rules, every ScanResult a
worker posts has a Matches field of exactly two entries, one per scanned buffer,
and both entries are empty. -/
theorem zero_rules_two_empty_entries (w : World) (url : String) (res : ScanResult)
    (hz : ∀ buf, w.scanMem buf = [])
    (hp : (workerIteration w url).outcome = .posted res) :
    res.Matches = [[], []] := by
  cases h : w.httpGet url with
  | none => simp [iteration_of_get_error h] at hp
  | some resp =>
    rw [iteration_of_get_ok h] at hp
    cases hb : headersToBytes resp.Header with
    | none => simp [hb] at hp
    | some headerBytes =>
      simp only [hb, Outcome.posted.injEq] at hp
      subst hp
      simp [hz]

/-- C4, an instance: the reachable target in the world without rules. -/
theorem zero_rules_two_empty_entries_witness :
    ({ URL := "http://up.example", CPESlice := [], Matches := [[], []] } :
      ScanResult).Matches = [[], []] :=
  zero_rules_two_empty_entries noRulesWorld "http://up.example"
    { URL := "http://up.example", CPESlice := [], Matches := [[], []] }
    (fun _ => rfl) (by decide)

/-- C4 as stated fails: with zero rules the ScanResult posted for the reachable
target has a Matches field of two elements, not of none. -/
theorem zero_rules_matches_not_empty :
    (∀ buf, noRulesWorld.scanMem buf = []) ∧
    (workerIteration noRulesWorld "http://up.example").outcome =
      .posted { URL := "http://up.example", CPESlice := [], Matches := [[], []] } ∧
    ([[], []] : List MatchRules).length = 2 :=
  ⟨fun _ => rfl, by decide, rfl⟩

/-- C5, as the code has it: for every target whose `http.Get` returns an error,
the worker invokes the matcher neither on the body nor on the headers, and the
iteration ends in the `continue`. -/
theorem failed_get_skips_matcher (w : World) (url : String)
    (hget : w.httpGet url = none) :
    (workerIteration w url).scans = [] ∧
    (workerIteration w url).outcome = .skipped := by
  rw [iteration_of_get_error hget]
  exact ⟨rfl, rfl⟩

/-- C5, an instance: the unreachable target of `demoWorld`. -/
theorem failed_get_skips_matcher_witness :
    (workerIteration demoWorld "http://down.example").scans = [] ∧
    (workerIteration demoWorld "http://down.example").outcome = .skipped :=
  failed_get_skips_matcher demoWorld "http://down.example" (by decide)

/-- C5 as stated fails: `cut.example` answers but reading its body returns an
error; the worker still runs the matcher on the partial body and on the headers
and posts a ScanResult, which has no field for the error. For `down.example`
nothing is posted, so no ScanResult records that error either. -/
theorem read_error_is_scanned :
    (demoWorld.httpGet "http://cut.example").map (fun resp => resp.readErr) = some true ∧
    workerIteration demoWorld "http://cut.example" =
      { outcome := .posted cutResult, scans := ["wp-", "Server:nginx\n"] } ∧
    (workerIteration demoWorld "http://down.example").outcome = .skipped := by
  decide

/-- C6, as the code has it: for every response header map, each key with at
least one value, the buffer `headersToBytes` returns is the concatenation of
one line `name:value` per field name, each field exactly once, in an order of
the fields (the reverse of the order in which the map is iterated), where the
value is the first value of the field. -/
theorem headersToBytes_one_line_per_field (h : Header)
    (hne : ∀ kv ∈ h, kv.2 ≠ []) :
    ∃ order : List (String × List String), order.Perm h ∧
      headersToBytes h = some (concatLines (order.map firstValueLine)) := by
  refine ⟨h.reverse, List.reverse_perm h, ?_⟩
  rw [headersToBytes, headersLoop_eq h hne ""]
  simp

/-- C6, an instance: two fields, the second with two values. -/
theorem headersToBytes_one_line_per_field_witness :
    ∃ order : List (String × List String),
      order.Perm [("Server", ["nginx"]), ("Set-Cookie", ["a=1", "b=2"])] ∧
      headersToBytes [("Server", ["nginx"]), ("Set-Cookie", ["a=1", "b=2"])]
        = some (concatLines (order.map firstValueLine)) :=
  headersToBytes_one_line_per_field
    [("Server", ["nginx"]), ("Set-Cookie", ["a=1", "b=2"])] (by decide)

/-- C6 as stated fails: for a field with two values the buffer holds the line
of the first value only, so it is no concatenation of all header lines. -/
theorem headersToBytes_drops_second_value :
    headersToBytes [("Set-Cookie", ["a=1", "b=2"])] = some "Set-Cookie:a=1\n" ∧
    ¬ ∃ order : List String,
      order.Perm (allHeaderLines [("Set-Cookie", ["a=1", "b=2"])]) ∧
      headersToBytes [("Set-Cookie", ["a=1", "b=2"])] = some (concatLines order) := by
  refine ⟨by decide, ?_⟩
  rintro ⟨order, hp, he⟩
  have hl := hp.length_eq
  have e : allHeaderLines [("Set-Cookie", ["a=1", "b=2"])]
      = ["Set-Cookie:a=1\n", "Set-Cookie:b=2\n"] := by decide
  rw [e] at hp hl
  match order, hl with
  | [a, b], _ =>
    have ha : a ∈ ["Set-Cookie:a=1\n", "Set-Cookie:b=2\n"] := hp.subset (by simp)
    have hb : b ∈ ["Set-Cookie:a=1\n", "Set-Cookie:b=2\n"] := hp.subset (by simp)
    simp only [List.mem_cons, List.mem_singleton, List.not_mem_nil, or_false] at ha hb
    rcases ha with rfl | rfl <;> rcases hb with rfl | rfl <;> revert he <;> decide

/-- C7, as the code has it: for every run whose worker count given with `-t` is
less than 1 and whose start-up reaches the worker pool, no worker is started and
no target is handed to a worker or scanned; under every interleaving the run
finishes normally, with exit status 0 and zero results. -/
theorem no_workers_run_finishes_empty (flags : Flags) (env : Env) (w : World)
    (opened : Bool) (lines : List String) (threads : Int)
    (ht : flags.threads < 1)
    (hs : startup flags env = .pipeline opened lines threads) :
    (init lines threads).workers = [] ∧
    (∀ sched s, run w (init lines threads) sched = some s →
      s.workers = [] ∧ s.input = lines ∧ s.out = [] ∧ s.crashed = false) ∧
    Terminates w (init lines threads) ∧
    main flags env w [.closeResults, .mainReturn] = some (0, []) ∧
    ∀ sched r, main flags env w sched = some r → r = (0, []) := by
  have hthr : threads.toNat = 0 := by
    rw [startup_threads hs]
    exact Int.toNat_eq_zero.2 (by omega)
  have hw0 : (init lines threads).workers = [] := by
    simp [init, startWorkers, hthr]
  have hall : ∀ sched s, run w (init lines threads) sched = some s →
      s.workers = [] ∧ s.input = lines ∧ s.out = [] ∧ s.crashed = false := by
    intro sched s h
    obtain ⟨h1, h2, h3⟩ := run_no_workers hw0 rfl rfl h
    exact ⟨h1, run_no_workers_input hw0 h, h2, h3⟩
  refine ⟨hw0, hall, terminates_init w lines threads, ?_, ?_⟩
  · simp [main, hs, run, step, init, startWorkers, hthr]
  · intro sched r h
    simp only [main, hs] at h
    cases hr : run w (init lines threads) sched with
    | none => simp [hr] at h
    | some s =>
      obtain ⟨_, _, ho, hc⟩ := hall sched s hr
      simp only [hr, ho, hc] at h
      split at h
      · cases h; rfl
      · simp at h

/-- C7, an instance: `-t 0` with the three lines of `targets.txt`. -/
theorem no_workers_run_finishes_empty_witness :
    (init demoLines 0).workers = [] ∧
    (∀ sched s, run demoWorld (init demoLines 0) sched = some s →
      s.workers = [] ∧ s.input = demoLines ∧ s.out = [] ∧ s.crashed = false) ∧
    Terminates demoWorld (init demoLines 0) ∧
    main zeroThreadsFlags demoEnv demoWorld [.closeResults, .mainReturn]
      = some (0, []) ∧
    ∀ sched r, main zeroThreadsFlags demoEnv demoWorld sched = some r → r = (0, []) :=
  no_workers_run_finishes_empty zeroThreadsFlags demoEnv demoWorld true demoLines 0
    (by decide) (by decide)

/-- C7 as stated fails: with `-t 0` and an input file of three lines nothing
aborts; the pool is reached and the run finishes normally, exit status 0, with
zero results. -/
theorem zero_workers_finishes_normally :
    zeroThreadsFlags.threads < 1 ∧
    startup zeroThreadsFlags demoEnv = .pipeline true demoLines 0 ∧
    main zeroThreadsFlags demoEnv demoWorld [.closeResults, .mainReturn]
      = some (0, []) := by
  decide

/-- C8, the code at the failing input: `-i missing.txt`, a file `os.Open` cannot
open. The start-up goes on to the pool with a file that yields no line, the
five workers are started, and the run finishes with exit status 0. -/
theorem missing_input_file_runs_pool :
    demoEnv.openOk missingFileFlags.inputFileName = false ∧
    startup missingFileFlags demoEnv = .pipeline false [] 5 ∧
    (init [] 5).workers.length = 5 ∧
    main missingFileFlags demoEnv demoWorld
        [.closeJobs, .leave 0, .leave 1, .leave 2, .leave 3, .leave 4,
         .closeResults, .mainReturn]
      = some (0, []) := by
  decide

/-- C9: for every input list and every worker count K >= 1, with the fetch and
scan outcomes fixed per target, every interleaving of the run with one worker
and of the run with K workers comes to an end, and a finished run with one
worker and a finished run with K workers have printed the same ScanResults, each
as often in the one as in the other; only the order may differ. -/
theorem one_worker_and_many_workers_same_results (w : World) (lines : List String)
    (K : Int) (hK : 1 ≤ K) :
    Terminates w (init lines 1) ∧ Terminates w (init lines K) ∧
    ∀ sched1 s1 schedK sK,
      run w (init lines 1) sched1 = some s1 → s1.mainDone = true →
      run w (init lines K) schedK = some sK → sK.mainDone = true →
      s1.out.Perm sK.out ∧ ∀ res, res ∈ s1.out ↔ res ∈ sK.out := by
  refine ⟨terminates_init w lines 1, terminates_init w lines K, ?_⟩
  intro sched1 s1 schedK sK h1 m1 hk mk
  have p1 := finished_results (le_refl 1) h1 m1
  have pk := finished_results hK hk mk
  have p := p1.trans pk.symm
  exact ⟨p, fun res => p.mem_iff⟩

/-- C9, an instance: `demoLines` with one worker and with two; the two runs
print the same two results in opposite orders. -/
theorem one_worker_and_many_workers_same_results_witness :
    [upResult, cutResult].Perm [cutResult, upResult] ∧
    ∀ res, res ∈ [upResult, cutResult] ↔ res ∈ [cutResult, upResult] :=
  (one_worker_and_many_workers_same_results demoWorld demoLines 2 (by decide)).2.2
    schedOne (finalState 1 [upResult, cutResult])
    schedTwo (finalState 2 [cutResult, upResult])
    (by decide) rfl (by decide) rfl

/-- C10: for every input list of target lines and every worker count K >= 1,
every interleaving comes to an end, and in a finished run the URL fields of the
ScanResults printed are, as a multiset, the input lines whose `http.Get`
succeeded: a line whose request fails yields no result, a result carries the
line of its target as URL; so there are at most as many results as input lines,
and as many exactly when no request fails. -/
theorem emitted_urls_are_fetched_lines (w : World) (lines : List String) (K : Int)
    (hK : 1 ≤ K) :
    Terminates w (init lines K) ∧
    (∀ url, getOk w url = false → (workerIteration w url).outcome = .skipped) ∧
    (∀ url res, (workerIteration w url).outcome = .posted res →
      res.URL = url ∧ getOk w url = true) ∧
    ∀ sched s, run w (init lines K) sched = some s → s.mainDone = true →
      (s.out.map ScanResult.URL).Perm (lines.filter (getOk w)) ∧
      s.out.length ≤ lines.length ∧
      (s.out.length = lines.length ↔ ∀ url ∈ lines, getOk w url = true) := by
  refine ⟨terminates_init w lines K, fun url h => skipped_iff.2 h,
    fun url res h => ⟨(posted_url h).2, (posted_url h).1⟩, fun sched s h hm => ?_⟩
  have hp := finished_urls hK h hm
  have hl : s.out.length = (lines.filter (getOk w)).length := by
    rw [← hp.length_eq, List.length_map]
  refine ⟨hp, ?_, ?_⟩
  · rw [hl]
    exact List.length_filter_le _ _
  · rw [hl]
    exact List.filter_length_eq_length

/-- C10, an instance: `demoLines` with two workers; the finished run `schedTwo`
printed the results of the two reachable lines, two results for three lines. -/
theorem emitted_urls_are_fetched_lines_witness :
    ((finalState 2 [cutResult, upResult]).out.map ScanResult.URL).Perm
        (demoLines.filter (getOk demoWorld)) ∧
      (finalState 2 [cutResult, upResult]).out.length ≤ demoLines.length ∧
      ((finalState 2 [cutResult, upResult]).out.length = demoLines.length ↔
        ∀ url ∈ demoLines, getOk demoWorld url = true) :=
  (emitted_urls_are_fetched_lines demoWorld demoLines 2 (by decide)).2.2.2
    schedTwo (finalState 2 [cutResult, upResult]) (by decide) rfl

end Spyglass
